import Mathlib

/-!
Verification of the weave-image-lab pixel permutation engine.

The definitions below are a shallow embedding of the TypeScript source:

* `validate` embeds the pattern validation in
  `src/components/DatabaseSectionCreator.tsx`, `handleCreateSection`
  (lines 56-68): the candidate pattern arrives as user-typed strings,
  is mapped through JavaScript `parseInt`, then checked for NaN /
  range and for duplicates (via `new Set`).  JavaScript strings are
  modelled as `List Char`, JavaScript's NaN as `Option.none`.
* `processImage` embeds `src/components/ImageProcessor.tsx`,
  `processImage` (lines 31-83): the output buffer is seeded with a
  byte copy of the input, then every complete vertical slice is
  permuted row by row with a gather through a temporary row buffer.
* `progressValues` embeds the progress updates issued at line 79.
-/

namespace WeaveLab

/-- Value of a base-10 digit character, `none` when the character is not
a decimal digit.  Used by the JavaScript `parseInt` model. -/
def decDigit (c : Char) : Option Nat :=
  if '0' ≤ c ∧ c ≤ '9' then some (c.toNat - '0'.toNat) else none

/-- Value of a base-16 digit character, `none` when the character is not
a hexadecimal digit. -/
def hexDigit (c : Char) : Option Nat :=
  if '0' ≤ c ∧ c ≤ '9' then some (c.toNat - '0'.toNat)
  else if 'a' ≤ c ∧ c ≤ 'f' then some (c.toNat - 'a'.toNat + 10)
  else if 'A' ≤ c ∧ c ≤ 'F' then some (c.toNat - 'A'.toNat + 10)
  else none

/-- Accumulate a digit list into a natural number in the given base. -/
def digitsToNat (base : Nat) (ds : List Nat) : Nat :=
  ds.foldl (fun a d => a * base + d) 0

/-- Longest run of digits at the front of the character list, read in
the given base; `none` when there is no digit at all (JavaScript
`parseInt` yields NaN in that case). -/
def parseDigitRun (dv : Char → Option Nat) (base : Nat) (cs : List Char) : Option Nat :=
  let ds := (cs.takeWhile (fun c => (dv c).isSome)).filterMap dv
  if ds.isEmpty then none else some (digitsToNat base ds)

/-- Magnitude part of JavaScript `parseInt` with no explicit radix: a
leading `0x`/`0X` switches to base 16, otherwise base 10. -/
def parseIntMagnitude (cs : List Char) : Option Nat :=
  match cs with
  | '0' :: 'x' :: rest => parseDigitRun hexDigit 16 rest
  | '0' :: 'X' :: rest => parseDigitRun hexDigit 16 rest
  | _ => parseDigitRun decDigit 10 cs

/-- Model of JavaScript `parseInt(s)` (radix argument omitted, as in the
source): skip leading whitespace, consume an optional sign, then read
the longest digit prefix; `none` models the NaN result. -/
def parseIntJS (s : List Char) : Option Int :=
  let cs := s.dropWhile (fun c => c.isWhitespace)
  match cs with
  | '-' :: rest => (parseIntMagnitude rest).map (fun n => -(n : Int))
  | '+' :: rest => (parseIntMagnitude rest).map (fun n => (n : Int))
  | _ => (parseIntMagnitude cs).map (fun n => (n : Int))

/-- Error kinds distinguished by the validation code: the source emits
exactly two failure toasts (range / duplicate). -/
inductive ValidationError where
  | InvalidRange
  | DuplicateValue
deriving DecidableEq, Repr

/-- Embedding of the validation in `handleCreateSection`
(DatabaseSectionCreator.tsx lines 56-68).  `raw` is the list of
user-typed pattern strings, `size` the section size.  The code maps
the strings through `parseInt`, rejects when some entry is NaN or some
entry is `< 1` or `> size` (JavaScript comparisons with NaN are false,
hence the explicit `none => false` branch), then rejects when
`new Set(pattern).size !== pattern.length` detects a duplicate, and
otherwise accepts the parsed pattern. -/
def validate (size : Nat) (raw : List (List Char)) : Except ValidationError (List (Option Int)) :=
  let pattern := raw.map parseIntJS
  if pattern.any (fun p => p.isNone) ||
     pattern.any (fun p =>
       match p with
       | none => false
       | some v => decide (v < 1) || decide (v > (size : Int))) then
    Except.error ValidationError.InvalidRange
  else if pattern.dedup.length ≠ pattern.length then
    Except.error ValidationError.DuplicateValue
  else
    Except.ok pattern

/-- Decoded image: `ImageData` of the source, with `data` the flat
row-major RGBA byte array (byte of pixel `(x, y)` channel `c` at offset
`((y * width) + x) * 4 + c`). -/
structure PixelBuffer where
  width : Nat
  height : Nat
  data : List Nat
deriving DecidableEq, Repr

/-- Byte offset of pixel `(x, y)`: `((y * width) + x) * 4`, as computed
at ImageProcessor.tsx lines 56 and 68. -/
def pixIdx (width y x : Nat) : Nat :=
  ((y * width) + x) * 4

/-- The four RGBA bytes of the pixel starting at byte offset `i`
(ImageProcessor.tsx lines 57-62). -/
def getPixel (data : List Nat) (i : Nat) : List Nat :=
  [data.getD i 0, data.getD (i + 1) 0, data.getD (i + 2) 0, data.getD (i + 3) 0]

/-- Temporary row buffer `originalRowData` for one row of one slice
(ImageProcessor.tsx lines 53-63): the `size` source pixels of row `y`
starting at column `sliceStartX`, read from the input `data`. -/
def originalRowData (width : Nat) (data : List Nat) (sliceStartX y size : Nat) :
    List (List Nat) :=
  (List.range size).map (fun x => getPixel data (pixIdx width y (sliceStartX + x)))

/-- Write the four bytes of pixel `px` at byte offset `t`
(ImageProcessor.tsx lines 71-74). -/
def setPixel (nd : List Nat) (t : Nat) (px : List Nat) : List Nat :=
  ((((nd.set t (px.getD 0 0)).set (t + 1) (px.getD 1 0)).set
      (t + 2) (px.getD 2 0)).set (t + 3) (px.getD 3 0))

/-- Inner loop of lines 66-75 after `k` iterations: for each destination
offset `x < k`, the pixel at column `sliceStartX + x` of row `y` is
overwritten with row-buffer entry `pattern[x] - 1`. -/
def applyRowLoop (width : Nat) (pattern : List Nat) (rowData : List (List Nat))
    (sliceStartX y : Nat) : Nat → List Nat → List Nat
  | 0, nd => nd
  | k + 1, nd =>
    setPixel (applyRowLoop width pattern rowData sliceStartX y k nd)
      (pixIdx width y (sliceStartX + k))
      (rowData.getD (pattern.getD k 0 - 1) [])

/-- Row loop of lines 51-76 after `k` rows: each processed row first
captures its `originalRowData` from the input and then applies the
reordering pattern. -/
def rowLoop (width : Nat) (data : List Nat) (pattern : List Nat) (size sliceStartX : Nat) :
    Nat → List Nat → List Nat
  | 0, nd => nd
  | k + 1, nd =>
    applyRowLoop width pattern (originalRowData width data sliceStartX k size)
      sliceStartX k size (rowLoop width data pattern size sliceStartX k nd)

/-- Slice loop of lines 47-83 after `k` slices; slice `s` starts at
column `s * size` (line 48). -/
def sliceLoop (width : Nat) (data : List Nat) (pattern : List Nat) (size height : Nat) :
    Nat → List Nat → List Nat
  | 0, nd => nd
  | k + 1, nd =>
    rowLoop width data pattern size (k * size) height
      (sliceLoop width data pattern size height k nd)

/-- Seeding copy of lines 40-42 after `k` iterations: byte `i` of the
fresh output array is overwritten with input byte `i` for each `i < k`
(a write past the end of the target is a no-op, as for a typed array). -/
def copyLoop (data : List Nat) : Nat → List Nat → List Nat
  | 0, nd => nd
  | k + 1, nd => (copyLoop data k nd).set k (data.getD k 0)

/-- Embedding of `processImage` (ImageProcessor.tsx lines 31-85): a new
zero-filled buffer of `width * height * 4` bytes (line 36) is seeded
with a copy of the input bytes (lines 40-42), then every complete
slice (`Math.floor(width / sectionSize)` of them, line 45) is permuted
in place. -/
def processImage (buf : PixelBuffer) (size : Nat) (pattern : List Nat) : PixelBuffer :=
  let numCompleteSlices := buf.width / size
  let nd0 := copyLoop buf.data buf.data.length
    (List.replicate (buf.width * buf.height * 4) 0)
  { width := buf.width
    height := buf.height
    data := sliceLoop buf.width buf.data pattern size buf.height numCompleteSlices nd0 }

/-- Progress values issued by line 79 across the run, in order: after
slice `i` of `N = width / size` the source calls
`setProgress(((slice + 1) / numCompleteSlices) * 100)`. -/
def progressValues (width size : Nat) : List ℚ :=
  (List.range (width / size)).map
    (fun (slice : Nat) => ((slice : ℚ) + 1) / ((width / size : Nat) : ℚ) * 100)

/-- Completion ratios of the engine: the progress stream of line 79
descaled from percent back to the `[0, 1]` ratio the spec talks
about. -/
def completionRatios (width size : Nat) : List ℚ :=
  (progressValues width size).map (fun p => p / 100)

/-- Observation function: the `size` pixels (as RGBA quadruples) of row
`y` inside slice `i`, i.e. at columns `i * size + j` for `j < size`. -/
def rowSlicePixels (buf : PixelBuffer) (y i size : Nat) : List (List Nat) :=
  (List.range size).map (fun j => getPixel buf.data (pixIdx buf.width y (i * size + j)))

theorem getD_set_self {l : List Nat} {i : Nat} {a : Nat} (h : i < l.length) :
    (l.set i a).getD i 0 = a := by
  simp [List.getD_eq_getElem?_getD, List.getElem?_set_self h]

theorem getD_set_ne {l : List Nat} {i j : Nat} {a : Nat} (h : i ≠ j) :
    (l.set i a).getD j 0 = l.getD j 0 := by
  simp [List.getD_eq_getElem?_getD, List.getElem?_set_ne h]

theorem getD_eq_getElem_of_lt {l : List Nat} {i : Nat} (h : i < l.length) :
    l.getD i 0 = l[i] := by
  simp [List.getD_eq_getElem?_getD, List.getElem?_eq_getElem h]

/-- Two lists of equal length agreeing on `getD` at every position are
equal. -/
theorem ext_getD {l₁ l₂ : List Nat} (hl : l₁.length = l₂.length)
    (h : ∀ i, i < l₁.length → l₁.getD i 0 = l₂.getD i 0) : l₁ = l₂ := by
  apply List.ext_getElem hl
  intro i h1 h2
  have h3 := h i h1
  rwa [getD_eq_getElem_of_lt h1, getD_eq_getElem_of_lt h2] at h3

theorem setPixel_length (nd : List Nat) (t : Nat) (px : List Nat) :
    (setPixel nd t px).length = nd.length := by
  simp [setPixel]

theorem applyRowLoop_length (width : Nat) (pattern : List Nat) (rowData : List (List Nat))
    (sliceStartX y k : Nat) (nd : List Nat) :
    (applyRowLoop width pattern rowData sliceStartX y k nd).length = nd.length := by
  induction k with
  | zero => rfl
  | succ k ih => simp [applyRowLoop, setPixel_length, ih]

theorem rowLoop_length (width : Nat) (data pattern : List Nat) (size sliceStartX k : Nat)
    (nd : List Nat) :
    (rowLoop width data pattern size sliceStartX k nd).length = nd.length := by
  induction k with
  | zero => rfl
  | succ k ih => simp [rowLoop, applyRowLoop_length, ih]

theorem sliceLoop_length (width : Nat) (data pattern : List Nat) (size height k : Nat)
    (nd : List Nat) :
    (sliceLoop width data pattern size height k nd).length = nd.length := by
  induction k with
  | zero => rfl
  | succ k ih => simp [sliceLoop, rowLoop_length, ih]

theorem copyLoop_length (data : List Nat) (k : Nat) (nd : List Nat) :
    (copyLoop data k nd).length = nd.length := by
  induction k with
  | zero => rfl
  | succ k ih => simp [copyLoop, ih]

theorem copyLoop_getD (data : List Nat) (k : Nat) (nd : List Nat) (j : Nat)
    (hj : j < nd.length) :
    (copyLoop data k nd).getD j 0 = if j < k then data.getD j 0 else nd.getD j 0 := by
  induction k with
  | zero => simp [copyLoop]
  | succ k ih =>
    simp only [copyLoop]
    by_cases hjk : j = k
    · subst hjk
      rw [getD_set_self (by rw [copyLoop_length]; exact hj)]
      simp
    · rw [getD_set_ne (fun h => hjk h.symm), ih]
      have hiff : j < k ↔ j < k + 1 := by omega
      exact if_congr hiff rfl rfl

/-- When the input has exactly `width * height * 4` bytes (the
`ImageData` invariant), the seeding copy reproduces it. -/
theorem copyLoop_replicate_eq {width height : Nat} {data : List Nat}
    (hlen : data.length = width * height * 4) :
    copyLoop data data.length (List.replicate (width * height * 4) 0) = data := by
  apply ext_getD
  · rw [copyLoop_length, List.length_replicate, hlen]
  · intro i h1
    have hi : i < (List.replicate (width * height * 4) (0 : Nat)).length := by
      rw [copyLoop_length, List.length_replicate] at h1
      simpa using h1
    have h2 : i < data.length := by
      rw [copyLoop_length, List.length_replicate, ← hlen] at h1
      exact h1
    rw [copyLoop_getD data data.length _ i hi, if_pos h2]

theorem pixIdx_add_lt {width height y x c : Nat} (hy : y < height) (hx : x < width)
    (hc : c < 4) : pixIdx width y x + c < width * height * 4 := by
  have h2 : (y + 1) * width ≤ height * width := Nat.mul_le_mul_right width hy
  have h3 : (y + 1) * width = y * width + width := by ring
  have h4 : height * width = width * height := by ring
  simp only [pixIdx]
  omega

theorem pixIdx_inj {width y1 x1 c1 y2 x2 c2 : Nat} (hx1 : x1 < width) (hx2 : x2 < width)
    (hc1 : c1 < 4) (hc2 : c2 < 4)
    (h : pixIdx width y1 x1 + c1 = pixIdx width y2 x2 + c2) :
    y1 = y2 ∧ x1 = x2 ∧ c1 = c2 := by
  simp only [pixIdx] at h
  have hac : y1 * width + x1 = y2 * width + x2 ∧ c1 = c2 := by omega
  obtain ⟨ha, hcc⟩ := hac
  have hw : 0 < width := by omega
  have e1 : (y1 * width + x1) % width = x1 := by
    rw [Nat.mul_comm, Nat.mul_add_mod]; exact Nat.mod_eq_of_lt hx1
  have e2 : (y2 * width + x2) % width = x2 := by
    rw [Nat.mul_comm, Nat.mul_add_mod]; exact Nat.mod_eq_of_lt hx2
  have hx : x1 = x2 := by rw [← e1, ← e2, ha]
  have hmul : y1 * width = y2 * width := by omega
  exact ⟨Nat.eq_of_mul_eq_mul_right hw hmul, hx, hcc⟩

theorem setPixel_getD_of_lt {nd : List Nat} {t : Nat} {px : List Nat} {c : Nat}
    (hc : c < 4) (ht : t + 3 < nd.length) :
    (setPixel nd t px).getD (t + c) 0 = px.getD c 0 := by
  interval_cases c
  · simp only [setPixel, Nat.add_zero]
    rw [getD_set_ne (by omega), getD_set_ne (by omega), getD_set_ne (by omega),
      getD_set_self (by omega)]
  · simp only [setPixel]
    rw [getD_set_ne (by omega), getD_set_ne (by omega),
      getD_set_self (by simp only [List.length_set]; omega)]
  · simp only [setPixel]
    rw [getD_set_ne (by omega),
      getD_set_self (by simp only [List.length_set]; omega)]
  · simp only [setPixel]
    rw [getD_set_self (by simp only [List.length_set]; omega)]

theorem setPixel_getD_ne {nd : List Nat} {t : Nat} {px : List Nat} {j : Nat}
    (h : ∀ c, c < 4 → j ≠ t + c) :
    (setPixel nd t px).getD j 0 = nd.getD j 0 := by
  have h0 : t ≠ j := by have := h 0 (by omega); omega
  have h1 : t + 1 ≠ j := by have := h 1 (by omega); omega
  have h2 : t + 2 ≠ j := by have := h 2 (by omega); omega
  have h3 : t + 3 ≠ j := by have := h 3 (by omega); omega
  simp only [setPixel]
  rw [getD_set_ne h3, getD_set_ne h2, getD_set_ne h1, getD_set_ne h0]

theorem originalRowData_getD {width : Nat} (data : List Nat) {sliceStartX y size j : Nat}
    (hj : j < size) :
    (originalRowData width data sliceStartX y size).getD j [] =
      getPixel data (pixIdx width y (sliceStartX + j)) := by
  simp only [originalRowData]
  rw [List.getD_eq_getElem?_getD, List.getElem?_map, List.getElem?_range hj]
  rfl

theorem getPixel_getD {data : List Nat} {i c : Nat} (hc : c < 4) :
    (getPixel data i).getD c 0 = data.getD (i + c) 0 := by
  interval_cases c <;> simp [getPixel]

/-- Effect of the inner gather loop (lines 66-75) after `k` iterations:
row `y` columns `[sliceStartX, sliceStartX + k)` hold the row-buffer
pixels selected by the pattern, every other byte is untouched. -/
theorem applyRowLoop_getD {width height : Nat} (pattern : List Nat)
    (rowData : List (List Nat)) {sliceStartX y k : Nat} {nd : List Nat}
    (hnd : nd.length = width * height * 4)
    (hy : y < height) (hk : sliceStartX + k ≤ width)
    {y' x' c : Nat} (_hy' : y' < height) (hx' : x' < width) (hc : c < 4) :
    (applyRowLoop width pattern rowData sliceStartX y k nd).getD (pixIdx width y' x' + c) 0 =
      if y' = y ∧ sliceStartX ≤ x' ∧ x' < sliceStartX + k
      then (rowData.getD (pattern.getD (x' - sliceStartX) 0 - 1) []).getD c 0
      else nd.getD (pixIdx width y' x' + c) 0 := by
  induction k with
  | zero =>
    simp only [applyRowLoop]
    rw [if_neg (by omega)]
  | succ k ih =>
    have hk' : sliceStartX + k ≤ width := by omega
    simp only [applyRowLoop]
    by_cases hhit : y' = y ∧ x' = sliceStartX + k
    · obtain ⟨hy2, hx2⟩ := hhit
      subst hy2
      subst hx2
      rw [setPixel_getD_of_lt hc (by
        rw [applyRowLoop_length, hnd]
        exact pixIdx_add_lt hy (by omega) (by omega))]
      rw [if_pos ⟨rfl, by omega, by omega⟩]
      have he : sliceStartX + k - sliceStartX = k := by omega
      rw [he]
    · have hne : ∀ c2, c2 < 4 → pixIdx width y' x' + c ≠ pixIdx width y (sliceStartX + k) + c2 := by
        intro c2 hc2 heq
        have h3 := pixIdx_inj hx' (by omega) hc hc2 heq
        exact hhit ⟨h3.1, h3.2.1⟩
      rw [setPixel_getD_ne hne, ih hk']
      by_cases hcond : y' = y ∧ sliceStartX ≤ x' ∧ x' < sliceStartX + k
      · rw [if_pos hcond, if_pos ⟨hcond.1, hcond.2.1, by omega⟩]
      · rw [if_neg hcond, if_neg ?_]
        intro hcc
        obtain ⟨e1, e2, e3⟩ := hcc
        have hxne : x' ≠ sliceStartX + k := fun e => hhit ⟨e1, e⟩
        exact hcond ⟨e1, e2, by omega⟩

/-- Effect of the row loop (lines 51-76) after `k` rows: inside the
processed rows the slice `[sliceStartX, sliceStartX + size)` is the
pattern gather of the input `data`, everything else is untouched. -/
theorem rowLoop_getD {width height : Nat} (data pattern : List Nat)
    {size sliceStartX k : Nat} {nd : List Nat}
    (hnd : nd.length = width * height * 4)
    (hss : sliceStartX + size ≤ width)
    (hpat : ∀ j, j < size → 1 ≤ pattern.getD j 0 ∧ pattern.getD j 0 ≤ size)
    (hk : k ≤ height)
    {y' x' c : Nat} (hy' : y' < height) (hx' : x' < width) (hc : c < 4) :
    (rowLoop width data pattern size sliceStartX k nd).getD (pixIdx width y' x' + c) 0 =
      if y' < k ∧ sliceStartX ≤ x' ∧ x' < sliceStartX + size
      then data.getD
        (pixIdx width y' (sliceStartX + (pattern.getD (x' - sliceStartX) 0 - 1)) + c) 0
      else nd.getD (pixIdx width y' x' + c) 0 := by
  induction k with
  | zero =>
    simp only [rowLoop]
    rw [if_neg (by omega)]
  | succ k ih =>
    have hk' : k ≤ height := by omega
    simp only [rowLoop]
    rw [applyRowLoop_getD pattern _ (by rw [rowLoop_length]; exact hnd) (by omega) hss
      hy' hx' hc]
    by_cases hhit : y' = k ∧ sliceStartX ≤ x' ∧ x' < sliceStartX + size
    · rw [if_pos hhit]
      obtain ⟨e1, e2, e3⟩ := hhit
      have hj : x' - sliceStartX < size := by omega
      have hsrc : pattern.getD (x' - sliceStartX) 0 - 1 < size := by
        have := hpat (x' - sliceStartX) hj
        omega
      rw [originalRowData_getD data hsrc, getPixel_getD hc]
      rw [if_pos ⟨by omega, e2, e3⟩, e1]
    · rw [if_neg hhit, ih hk']
      by_cases hcond : y' < k ∧ sliceStartX ≤ x' ∧ x' < sliceStartX + size
      · rw [if_pos hcond, if_pos ⟨by omega, hcond.2.1, hcond.2.2⟩]
      · rw [if_neg hcond, if_neg ?_]
        intro hcc
        obtain ⟨e1, e2, e3⟩ := hcc
        have hyne : y' ≠ k := fun e => hhit ⟨e, e2, e3⟩
        exact hcond ⟨by omega, e2, e3⟩

/-- Effect of the slice loop (lines 47-83) after `k` slices: inside the
first `k * size` columns every byte is the pattern gather of the
input, everything further right is untouched. -/
theorem sliceLoop_getD {width height : Nat} (data pattern : List Nat)
    {size s : Nat} {nd : List Nat}
    (hnd : nd.length = width * height * 4)
    (hpat : ∀ j, j < size → 1 ≤ pattern.getD j 0 ∧ pattern.getD j 0 ≤ size)
    (hs : s ≤ width / size)
    {y' x' c : Nat} (hy' : y' < height) (hx' : x' < width) (hc : c < 4) :
    (sliceLoop width data pattern size height s nd).getD (pixIdx width y' x' + c) 0 =
      if x' < s * size
      then data.getD
        (pixIdx width y' ((x' - x' % size) + (pattern.getD (x' % size) 0 - 1)) + c) 0
      else nd.getD (pixIdx width y' x' + c) 0 := by
  induction s with
  | zero =>
    simp only [sliceLoop]
    rw [if_neg (by omega)]
  | succ s ih =>
    have hs' : s ≤ width / size := by omega
    have hexp : (s + 1) * size = s * size + size := by ring
    have hbound : (s + 1) * size ≤ width := by
      calc (s + 1) * size ≤ (width / size) * size := Nat.mul_le_mul_right size hs
        _ ≤ width := Nat.div_mul_le_self width size
    simp only [sliceLoop]
    rw [rowLoop_getD data pattern (by rw [sliceLoop_length]; exact hnd) (by omega) hpat
      (Nat.le_refl height) hy' hx' hc]
    by_cases hhit : s * size ≤ x' ∧ x' < s * size + size
    · rw [if_pos ⟨hy', hhit.1, hhit.2⟩]
      obtain ⟨h1, h2⟩ := hhit
      have hr : x' - s * size < size := by omega
      have hx'eq : x' = size * s + (x' - s * size) := by
        have := Nat.mul_comm s size
        omega
      have hmod : x' % size = x' - s * size := by
        conv_lhs => rw [hx'eq]
        rw [Nat.mul_add_mod]
        exact Nat.mod_eq_of_lt hr
      have hsub : x' - x' % size = s * size := by omega
      rw [if_pos (by omega : x' < (s + 1) * size), hsub, hmod]
    · rw [if_neg (fun hcc => hhit ⟨hcc.2.1, hcc.2.2⟩), ih hs']
      by_cases hcond : x' < s * size
      · rw [if_pos hcond, if_pos (by omega)]
      · have hge : ¬(x' < s * size + size) := fun hlt => hhit ⟨by omega, hlt⟩
        rw [if_neg hcond, if_neg (by omega)]

/-- Pointwise description of `processImage`: for a validated pattern,
byte `c` of pixel `(x, y)` of the output is the gathered input byte
inside complete slices and the unchanged input byte elsewhere. -/
theorem processImage_getD {buf : PixelBuffer} {size : Nat} {pattern : List Nat}
    (hlen : buf.data.length = buf.width * buf.height * 4)
    (hpat : ∀ j, j < size → 1 ≤ pattern.getD j 0 ∧ pattern.getD j 0 ≤ size)
    {y' x' c : Nat} (hy' : y' < buf.height) (hx' : x' < buf.width) (hc : c < 4) :
    (processImage buf size pattern).data.getD (pixIdx buf.width y' x' + c) 0 =
      if x' < (buf.width / size) * size
      then buf.data.getD
        (pixIdx buf.width y' ((x' - x' % size) + (pattern.getD (x' % size) 0 - 1)) + c) 0
      else buf.data.getD (pixIdx buf.width y' x' + c) 0 := by
  have hcopy : copyLoop buf.data buf.data.length
      (List.replicate (buf.width * buf.height * 4) 0) = buf.data :=
    copyLoop_replicate_eq hlen
  simp only [processImage]
  rw [hcopy]
  exact sliceLoop_getD buf.data pattern hlen hpat (Nat.le_refl _) hy' hx' hc

theorem processImage_data_length (buf : PixelBuffer) (size : Nat) (pattern : List Nat) :
    (processImage buf size pattern).data.length = buf.width * buf.height * 4 := by
  simp only [processImage]
  rw [sliceLoop_length, copyLoop_length, List.length_replicate]

/-- Every byte index of a `width × height` RGBA buffer decomposes into a
pixel coordinate and a channel. -/
theorem idx_decompose {width height idx : Nat} (hidx : idx < width * height * 4) :
    ∃ y x c, y < height ∧ x < width ∧ c < 4 ∧ idx = pixIdx width y x + c := by
  have hw : 0 < width := by
    by_contra hwc
    have hz : width = 0 := by omega
    subst hz
    simp at hidx
  refine ⟨idx / 4 / width, idx / 4 % width, idx % 4, ?_, ?_, ?_, ?_⟩
  · have h1 : idx / 4 < width * height := (Nat.div_lt_iff_lt_mul (by omega)).mpr hidx
    rw [Nat.div_lt_iff_lt_mul hw]
    have h2 : height * width = width * height := by ring
    omega
  · exact Nat.mod_lt _ hw
  · exact Nat.mod_lt _ (by omega)
  · simp only [pixIdx]
    have d1 := Nat.div_add_mod (idx / 4) width
    have d2 := Nat.div_add_mod idx 4
    have d3 : width * (idx / 4 / width) = idx / 4 / width * width := by ring
    omega

theorem PixelBuffer.eq_of_data_eq {b1 b2 : PixelBuffer} (hw : b1.width = b2.width)
    (hh : b1.height = b2.height) (hd : b1.data = b2.data) : b1 = b2 := by
  cases b1
  cases b2
  simp_all

/-- Gather semantics for a single byte inside a complete slice (helper
for the claim-level theorems below). -/
theorem processImage_gather_byte {buf : PixelBuffer} {size : Nat} {pattern : List Nat}
    (hlen : buf.data.length = buf.width * buf.height * 4)
    (hpat : ∀ j, j < size → 1 ≤ pattern.getD j 0 ∧ pattern.getD j 0 ≤ size)
    {i y j c : Nat} (hi : i < buf.width / size) (hy : y < buf.height) (hj : j < size)
    (hc : c < 4) :
    (processImage buf size pattern).data.getD (pixIdx buf.width y (i * size + j) + c) 0 =
      buf.data.getD (pixIdx buf.width y (i * size + (pattern.getD j 0 - 1)) + c) 0 := by
  have hx' : i * size + j < (buf.width / size) * size := by
    have h1 : (i + 1) * size ≤ (buf.width / size) * size := Nat.mul_le_mul_right size hi
    have h2 : (i + 1) * size = i * size + size := by ring
    omega
  have hxw : i * size + j < buf.width := by
    have := Nat.div_mul_le_self buf.width size
    omega
  rw [processImage_getD hlen hpat hy hxw hc, if_pos hx']
  have hmod : (i * size + j) % size = j := by
    rw [Nat.mul_comm i size, Nat.mul_add_mod]
    exact Nat.mod_eq_of_lt hj
  rw [hmod]
  have hsub : i * size + j - j = i * size := by omega
  rw [hsub]

/-- C1: for every complete slice `i`, row `y`, destination offset
`j < size` and channel `c`, the output byte at column `i * size + j`
equals the input byte at column `i * size + (pattern[j] - 1)` of the
same row — the gather semantics of the permutation. -/
theorem processImage_gather {buf : PixelBuffer} {size : Nat} {pattern : List Nat}
    (hlen : buf.data.length = buf.width * buf.height * 4)
    (hpat : ∀ j, j < size → 1 ≤ pattern.getD j 0 ∧ pattern.getD j 0 ≤ size)
    {i y j c : Nat} (hi : i < buf.width / size) (hy : y < buf.height) (hj : j < size)
    (hc : c < 4) :
    (processImage buf size pattern).data.getD (pixIdx buf.width y (i * size + j) + c) 0 =
      buf.data.getD (pixIdx buf.width y (i * size + (pattern.getD j 0 - 1)) + c) 0 :=
  processImage_gather_byte hlen hpat hi hy hj hc

/-- C2: when `width = size * N + r` with `0 < r < size`, the rightmost
`r` columns (those with `size * N ≤ x < width`) of every row are
byte-identical between input and output, for every validated
pattern. -/
theorem processImage_partial_slice {buf : PixelBuffer} {size : Nat} {pattern : List Nat}
    (N r : Nat)
    (hlen : buf.data.length = buf.width * buf.height * 4)
    (hpat : ∀ j, j < size → 1 ≤ pattern.getD j 0 ∧ pattern.getD j 0 ≤ size)
    (hw : buf.width = size * N + r) (hr0 : 0 < r) (hrs : r < size)
    {y x c : Nat} (hy : y < buf.height) (hx1 : size * N ≤ x) (hx2 : x < buf.width)
    (hc : c < 4) :
    (processImage buf size pattern).data.getD (pixIdx buf.width y x + c) 0 =
      buf.data.getD (pixIdx buf.width y x + c) 0 := by
  have h0 : 0 < size := by omega
  have hdiv : buf.width / size = N := by
    rw [hw, Nat.mul_add_div h0]
    have : r / size = 0 := Nat.div_eq_of_lt hrs
    omega
  have hnot : ¬ (x < (buf.width / size) * size) := by
    rw [hdiv]
    have hcm : N * size = size * N := by ring
    omega
  rw [processImage_getD hlen hpat hy hx2 hc, if_neg hnot]

/-- C6: applying the identity pattern `[1, 2, ..., size]` returns a
buffer byte-identical to the input. -/
theorem processImage_identity {buf : PixelBuffer} {size : Nat}
    (h0 : 0 < size)
    (hlen : buf.data.length = buf.width * buf.height * 4) :
    processImage buf size (List.range' 1 size) = buf := by
  have hpat : ∀ j, j < size →
      1 ≤ (List.range' 1 size).getD j 0 ∧ (List.range' 1 size).getD j 0 ≤ size := by
    intro j hj
    have hjl : j < (List.range' 1 size).length := by simp [hj]
    rw [getD_eq_getElem_of_lt hjl, List.getElem_range']
    omega
  refine PixelBuffer.eq_of_data_eq rfl rfl ?_
  apply ext_getD
  · rw [processImage_data_length, hlen]
  · intro idx hidx
    rw [processImage_data_length] at hidx
    obtain ⟨y, x, c, hy, hx, hc, rfl⟩ := idx_decompose hidx
    rw [processImage_getD hlen hpat hy hx hc]
    by_cases hcase : x < (buf.width / size) * size
    · rw [if_pos hcase]
      have hm : x % size < size := Nat.mod_lt x h0
      have hgv : (List.range' 1 size).getD (x % size) 0 = 1 + x % size := by
        have hjl : x % size < (List.range' 1 size).length := by simp [hm]
        rw [getD_eq_getElem_of_lt hjl, List.getElem_range']
        omega
      rw [hgv]
      have hcol : (x - x % size) + (1 + x % size - 1) = x := by
        have := Nat.mod_le x size
        omega
      rw [hcol]
    · rw [if_neg hcase]

/-- C8: the result of `processImage` is a fresh buffer with the same
dimensions as the input and a full `width * height * 4`-byte payload;
the input buffer itself is never written (the source writes only into
`newData`, which the embedding reflects by threading state solely
through the output). -/
theorem processImage_fresh (buf : PixelBuffer) (size : Nat) (pattern : List Nat) :
    (processImage buf size pattern).width = buf.width ∧
    (processImage buf size pattern).height = buf.height ∧
    (processImage buf size pattern).data.length = buf.width * buf.height * 4 :=
  ⟨rfl, rfl, processImage_data_length buf size pattern⟩

/-- C10: every output pixel is a whole copy of a single input pixel of
the same row: all four channel bytes come from one source column. -/
theorem processImage_pixel_source {buf : PixelBuffer} {size : Nat} {pattern : List Nat}
    (hlen : buf.data.length = buf.width * buf.height * 4)
    (h0 : 0 < size)
    (hpat : ∀ j, j < size → 1 ≤ pattern.getD j 0 ∧ pattern.getD j 0 ≤ size)
    {y x : Nat} (hy : y < buf.height) (hx : x < buf.width) :
    ∃ sx, sx < buf.width ∧ ∀ c, c < 4 →
      (processImage buf size pattern).data.getD (pixIdx buf.width y x + c) 0 =
        buf.data.getD (pixIdx buf.width y sx + c) 0 := by
  by_cases hcase : x < (buf.width / size) * size
  · refine ⟨(x - x % size) + (pattern.getD (x % size) 0 - 1), ?_, ?_⟩
    · have hj : x % size < size := Nat.mod_lt x h0
      have hpj := hpat (x % size) hj
      have h9 := Nat.div_add_mod x size
      have hdivlt : x / size < buf.width / size := by
        by_contra hcon
        have hle : buf.width / size ≤ x / size := by omega
        have h5 : (buf.width / size) * size ≤ (x / size) * size := Nat.mul_le_mul_right size hle
        have h6 := Nat.div_mul_le_self x size
        omega
      have h7 : (x / size + 1) * size ≤ (buf.width / size) * size :=
        Nat.mul_le_mul_right size hdivlt
      have h8 : (x / size + 1) * size = x / size * size + size := by ring
      have h10 : size * (x / size) = x / size * size := by ring
      have hWd := Nat.div_mul_le_self buf.width size
      omega
    · intro c hc
      rw [processImage_getD hlen hpat hy hx hc, if_pos hcase]
  · refine ⟨x, hx, ?_⟩
    intro c hc
    rw [processImage_getD hlen hpat hy hx hc, if_neg hcase]

/-- C7: applying a valid pattern `P` and then a pattern `Q` with
`P[Q[j] - 1] = j + 1` for all `j` (that is, `Q` is the inverse
permutation of `P`) restores the original buffer exactly, whenever the
width is a multiple of `size`. -/
theorem processImage_involution {buf : PixelBuffer} {size : Nat} {P Q : List Nat}
    (hlen : buf.data.length = buf.width * buf.height * 4)
    (h0 : 0 < size)
    (hP : ∀ j, j < size → 1 ≤ P.getD j 0 ∧ P.getD j 0 ≤ size)
    (hQ : ∀ j, j < size → 1 ≤ Q.getD j 0 ∧ Q.getD j 0 ≤ size)
    (hPQ : ∀ j, j < size → P.getD (Q.getD j 0 - 1) 0 = j + 1)
    (hdvd : size ∣ buf.width) :
    processImage (processImage buf size P) size Q = buf := by
  have hful : (buf.width / size) * size = buf.width := Nat.div_mul_cancel hdvd
  have hW1 : (processImage buf size P).width = buf.width := rfl
  have hH1 : (processImage buf size P).height = buf.height := rfl
  have hlen1 : (processImage buf size P).data.length =
      (processImage buf size P).width * (processImage buf size P).height * 4 := by
    rw [hW1, hH1]
    exact processImage_data_length buf size P
  refine PixelBuffer.eq_of_data_eq rfl rfl ?_
  apply ext_getD
  · rw [processImage_data_length, hW1, hH1, hlen]
  · intro idx hidx
    rw [processImage_data_length, hW1, hH1] at hidx
    obtain ⟨y, x, c, hy, hx, hc, rfl⟩ := idx_decompose hidx
    have hy1 : y < (processImage buf size P).height := by rw [hH1]; exact hy
    have hx1 : x < (processImage buf size P).width := by rw [hW1]; exact hx
    have hm1 := @processImage_getD (processImage buf size P) size Q hlen1 hQ y x c
      hy1 hx1 hc
    rw [hW1] at hm1
    rw [hm1, if_pos (by rw [hful]; exact hx)]
    have hj : x % size < size := Nat.mod_lt x h0
    have hQj := hQ (x % size) hj
    have h9 := Nat.div_add_mod x size
    have hdivlt : x / size < buf.width / size := by
      by_contra hcon
      have hle : buf.width / size ≤ x / size := by omega
      have h5 : (buf.width / size) * size ≤ (x / size) * size := Nat.mul_le_mul_right size hle
      have h6 := Nat.div_mul_le_self x size
      omega
    have hmlt : (x - x % size) + (Q.getD (x % size) 0 - 1) < buf.width := by
      have h7 : (x / size + 1) * size ≤ (buf.width / size) * size :=
        Nat.mul_le_mul_right size hdivlt
      have h8 : (x / size + 1) * size = x / size * size + size := by ring
      have h10 : size * (x / size) = x / size * size := by ring
      omega
    have hmmod : ((x - x % size) + (Q.getD (x % size) 0 - 1)) % size =
        Q.getD (x % size) 0 - 1 := by
      have heq : (x - x % size) + (Q.getD (x % size) 0 - 1) =
          size * (x / size) + (Q.getD (x % size) 0 - 1) := by omega
      rw [heq, Nat.mul_add_mod]
      exact Nat.mod_eq_of_lt (by omega)
    have hm2 := @processImage_getD buf size P hlen hP y
      ((x - x % size) + (Q.getD (x % size) 0 - 1)) c hy hmlt hc
    rw [hm2, if_pos (by rw [hful]; exact hmlt)]
    have hcol : ((x - x % size) + (Q.getD (x % size) 0 - 1)) -
          (((x - x % size) + (Q.getD (x % size) 0 - 1)) % size) +
          (P.getD ((((x - x % size) + (Q.getD (x % size) 0 - 1))) % size) 0 - 1) = x := by
      rw [hmmod, hPQ (x % size) hj]
      have := Nat.mod_le x size
      omega
    rw [hcol]

theorem getPixel_congr {d1 d2 : List Nat} {a b : Nat}
    (h : ∀ c, c < 4 → d1.getD (a + c) 0 = d2.getD (b + c) 0) :
    getPixel d1 a = getPixel d2 b := by
  have h0 := h 0 (by omega)
  have h1 := h 1 (by omega)
  have h2 := h 2 (by omega)
  have h3 := h 3 (by omega)
  simp only [Nat.add_zero] at h0
  simp only [getPixel, h0, h1, h2, h3]

theorem list_eq_map_getD_range {l : List Nat} {n : Nat} (h : l.length = n) :
    (List.range n).map (fun j => l.getD j 0) = l := by
  apply List.ext_getElem
  · simp [h]
  · intro i h1 h2
    simp only [List.getElem_map, List.getElem_range]
    exact getD_eq_getElem_of_lt h2

theorem range'_map_sub_one {size : Nat} :
    (List.range' 1 size).map (fun v => v - 1) = List.range size := by
  rw [List.range'_eq_map_range, List.map_map]
  have hcomp : ((fun v => v - 1) ∘ (fun x => 1 + x)) = (id : Nat → Nat) := by
    funext x
    simp [Function.comp]
  rw [hcomp, List.map_id]

/-- A pattern accepted by the validation (right length, values in
`[1, size]`, no duplicates) is a permutation of `[1, ..., size]`. -/
theorem validPattern_perm {pattern : List Nat} {size : Nat}
    (hlen : pattern.length = size)
    (hmem : ∀ v ∈ pattern, 1 ≤ v ∧ v ≤ size)
    (hnodup : pattern.Nodup) :
    pattern.Perm (List.range' 1 size) := by
  have hsub : pattern ⊆ List.range' 1 size := by
    intro v hv
    have hb := hmem v hv
    rw [List.mem_range'_1]
    omega
  have hsubperm := hnodup.subperm hsub
  exact hsubperm.perm_of_length_le (by rw [List.length_range', hlen])

theorem validPattern_getD {pattern : List Nat} {size : Nat}
    (hlen : pattern.length = size)
    (hmem : ∀ v ∈ pattern, 1 ≤ v ∧ v ≤ size) :
    ∀ j, j < size → 1 ≤ pattern.getD j 0 ∧ pattern.getD j 0 ≤ size := by
  intro j hj
  have hjl : j < pattern.length := by omega
  rw [getD_eq_getElem_of_lt hjl]
  exact hmem _ (pattern.getElem_mem hjl)

/-- C9: inside every row of every complete slice, the output pixels are
a permutation (as a multiset) of the corresponding input pixels: the
gather only moves RGBA quadruples around. -/
theorem processImage_row_slice_perm {buf : PixelBuffer} {size : Nat} {pattern : List Nat}
    (hlen : buf.data.length = buf.width * buf.height * 4)
    (_h0 : 0 < size)
    (hplen : pattern.length = size)
    (hmem : ∀ v ∈ pattern, 1 ≤ v ∧ v ≤ size)
    (hnodup : pattern.Nodup)
    {y i : Nat} (hy : y < buf.height) (hi : i < buf.width / size) :
    (rowSlicePixels (processImage buf size pattern) y i size).Perm
      (rowSlicePixels buf y i size) := by
  have hpat := validPattern_getD hplen hmem
  have hperm := validPattern_perm hplen hmem hnodup
  have hWp : (processImage buf size pattern).width = buf.width := rfl
  have hstep : rowSlicePixels (processImage buf size pattern) y i size =
      ((List.range size).map (fun j => pattern.getD j 0 - 1)).map
        (fun j => getPixel buf.data (pixIdx buf.width y (i * size + j))) := by
    rw [List.map_map]
    simp only [rowSlicePixels, hWp]
    apply List.map_congr_left
    intro j hj
    rw [List.mem_range] at hj
    apply getPixel_congr
    intro c hc
    exact processImage_gather_byte hlen hpat hi hy hj hc
  have hidx : ((List.range size).map (fun j => pattern.getD j 0 - 1)).Perm
      (List.range size) := by
    have hmap : (List.range size).map (fun j => pattern.getD j 0 - 1) =
        pattern.map (fun v => v - 1) := by
      have h1 : (List.range size).map (fun j => pattern.getD j 0 - 1) =
          ((List.range size).map (fun j => pattern.getD j 0)).map (fun v => v - 1) := by
        rw [List.map_map]
        rfl
      rw [h1, list_eq_map_getD_range hplen]
    rw [hmap, ← range'_map_sub_one]
    exact hperm.map _
  rw [hstep]
  have hfinal := hidx.map
    (fun j => getPixel buf.data (pixIdx buf.width y (i * size + j)))
  simpa only [rowSlicePixels] using hfinal

theorem completionRatios_length (width size : Nat) :
    (completionRatios width size).length = width / size := by
  simp only [completionRatios, progressValues, List.length_map, List.length_range]

theorem completionRatios_getElem? {width size i : Nat} (hi : i < width / size) :
    (completionRatios width size)[i]? =
      some (((i : ℚ) + 1) / ((width / size : Nat) : ℚ)) := by
  simp only [completionRatios, progressValues, List.map_map]
  rw [List.getElem?_map, List.getElem?_range hi]
  simp only [Option.map_some']
  congr 1
  simp only [Function.comp]
  exact mul_div_cancel_right₀ _ (by norm_num)

theorem completionRatios_getD {width size i : Nat} (hi : i < width / size) :
    (completionRatios width size).getD i 0 =
      ((i : ℚ) + 1) / ((width / size : Nat) : ℚ) := by
  rw [List.getD_eq_getElem?_getD, completionRatios_getElem? hi]
  rfl

/-- C5 (amended): the completion ratios reported by the slice loop all
lie in `[0, 1]`, are monotonically non-decreasing, the ratio reported
after slice `i` of `N = width / size` equals `(i + 1) / N`, and when
`N ≥ 1` the final reported ratio is exactly `1`.  When `N = 0` however
the code reports nothing at all (the loop body never runs), and the
output buffer is an unmodified copy of the input. -/
theorem completionRatios_spec (width size : Nat) (_h0 : 0 < size) :
    (∀ q ∈ completionRatios width size, 0 ≤ q ∧ q ≤ 1) ∧
    (∀ a b, a ≤ b → b < width / size →
      (completionRatios width size).getD a 0 ≤ (completionRatios width size).getD b 0) ∧
    (∀ i, i < width / size →
      (completionRatios width size).getD i 0 = ((i : ℚ) + 1) / ((width / size : Nat) : ℚ)) ∧
    (0 < width / size → (completionRatios width size).getLast? = some 1) ∧
    (width / size = 0 → completionRatios width size = [] ∧
      ∀ buf : PixelBuffer, ∀ pattern : List Nat, buf.width = width →
        buf.data.length = buf.width * buf.height * 4 →
        (processImage buf size pattern).data = buf.data) := by
  refine ⟨?_, ?_, fun i hi => completionRatios_getD hi, ?_, ?_⟩
  · intro q hq
    simp only [completionRatios, progressValues, List.map_map, List.mem_map,
      List.mem_range] at hq
    obtain ⟨sl, hsl, rfl⟩ := hq
    have hval : ((fun p => p / 100) ∘ fun (slice : Nat) => ((slice : ℚ) + 1) /
        ((width / size : Nat) : ℚ) * 100) sl =
        ((sl : ℚ) + 1) / ((width / size : Nat) : ℚ) := by
      simp only [Function.comp]
      exact mul_div_cancel_right₀ _ (by norm_num)
    rw [hval]
    have hNpos : (0 : ℚ) < ((width / size : Nat) : ℚ) := by
      exact_mod_cast (by omega : 0 < width / size)
    constructor
    · apply div_nonneg _ (le_of_lt hNpos)
      positivity
    · rw [div_le_one hNpos]
      exact_mod_cast (by omega : sl + 1 ≤ width / size)
  · intro a b hab hb
    rw [completionRatios_getD (by omega), completionRatios_getD hb]
    have hNpos : (0 : ℚ) < ((width / size : Nat) : ℚ) := by
      exact_mod_cast (by omega : 0 < width / size)
    apply div_le_div_of_nonneg_right ?_ hNpos.le
    · have : (a : ℚ) ≤ (b : ℚ) := by exact_mod_cast hab
      linarith
  · intro hN
    rw [List.getLast?_eq_getElem?, completionRatios_length,
      completionRatios_getElem? (by omega)]
    congr 1
    have hcast : ((width / size - 1 : Nat) : ℚ) + 1 = ((width / size : Nat) : ℚ) := by
      have : width / size - 1 + 1 = width / size := by omega
      exact_mod_cast congrArg (fun n : Nat => (n : ℚ)) this
    rw [hcast]
    exact div_self (by exact_mod_cast (by omega : width / size ≠ 0))
  · intro hN
    constructor
    · exact List.eq_nil_of_length_eq_zero (by rw [completionRatios_length]; exact hN)
    · intro buf pattern hbw hblen
      have hz : buf.width / size = 0 := by rw [hbw]; exact hN
      simp only [processImage, hz, sliceLoop]
      exact copyLoop_replicate_eq hblen

/-- C5 counterexample: with `width = 2` and `size = 3` there are no
complete slices, and the code then reports no progress at all — in
particular completion `1.0` is never reported, contradicting the
claim that `1.0` is reported immediately when `N = 0`. -/
theorem completionRatios_cex :
    completionRatios 2 3 = [] ∧ (1 : ℚ) ∉ completionRatios 2 3 := by
  refine ⟨rfl, ?_⟩
  rw [show completionRatios 2 3 = [] from rfl]
  exact List.not_mem_nil 1

/-- The range-and-NaN check of `validate` passes when every entry
parses to an integer inside `[1, size]`. -/
theorem validate_firstCheck_false {size : Nat} {raw : List (List Char)}
    (h1 : ∀ p ∈ raw.map parseIntJS, ∃ v : Int, p = some v ∧ 1 ≤ v ∧ v ≤ (size : Int)) :
    ((raw.map parseIntJS).any (fun p => p.isNone) ||
     (raw.map parseIntJS).any (fun p =>
       match p with
       | none => false
       | some v => decide (v < 1) || decide (v > (size : Int)))) = false := by
  have hA : (raw.map parseIntJS).any (fun p => p.isNone) = false := by
    rw [List.any_eq_false]
    intro p hp
    obtain ⟨v, hv, _, _⟩ := h1 p hp
    simp [hv]
  have hB : (raw.map parseIntJS).any (fun p =>
      match p with
      | none => false
      | some v => decide (v < 1) || decide (v > (size : Int))) = false := by
    rw [List.any_eq_false]
    intro p hp
    obtain ⟨v, hv, hv1, hv2⟩ := h1 p hp
    subst hv
    simp only [decide_eq_false (by omega : ¬ v < 1),
      decide_eq_false (by omega : ¬ v > (size : Int)), Bool.or_self]
    exact Bool.false_ne_true
  rw [hA, hB]
  rfl

/-- Acceptance path of `validate`: every entry parses to an integer in
`[1, size]` and the parsed values are pairwise distinct.  Note there is
no constraint tying `raw.length` to `size`. -/
theorem validate_ok_aux {size : Nat} {raw : List (List Char)}
    (h1 : ∀ p ∈ raw.map parseIntJS, ∃ v : Int, p = some v ∧ 1 ≤ v ∧ v ≤ (size : Int))
    (h2 : (raw.map parseIntJS).Nodup) :
    validate size raw = Except.ok (raw.map parseIntJS) := by
  simp only [validate]
  rw [validate_firstCheck_false h1, List.dedup_eq_self.mpr h2]
  simp

theorem validate_invalid_range {size : Nat} {raw : List (List Char)}
    (h : ∃ p ∈ raw.map parseIntJS,
      p = none ∨ ∃ v : Int, p = some v ∧ (v < 1 ∨ v > (size : Int))) :
    validate size raw = Except.error ValidationError.InvalidRange := by
  simp only [validate]
  have hcond : ((raw.map parseIntJS).any (fun p => p.isNone) ||
      (raw.map parseIntJS).any (fun p =>
        match p with
        | none => false
        | some v => decide (v < 1) || decide (v > (size : Int)))) = true := by
    rw [Bool.or_eq_true]
    obtain ⟨p, hp, hcase⟩ := h
    rcases hcase with rfl | ⟨v, rfl, hv⟩
    · left
      rw [List.any_eq_true]
      exact ⟨none, hp, rfl⟩
    · right
      rw [List.any_eq_true]
      refine ⟨some v, hp, ?_⟩
      show (decide (v < 1) || decide (v > (size : Int))) = true
      rcases hv with hv | hv
      · rw [decide_eq_true hv]
        rfl
      · rw [decide_eq_true hv, Bool.or_true]
  rw [hcond]
  simp

theorem validate_duplicate {size : Nat} {raw : List (List Char)}
    (h1 : ∀ p ∈ raw.map parseIntJS, ∃ v : Int, p = some v ∧ 1 ≤ v ∧ v ≤ (size : Int))
    (h2 : ¬ (raw.map parseIntJS).Nodup) :
    validate size raw = Except.error ValidationError.DuplicateValue := by
  simp only [validate]
  rw [validate_firstCheck_false h1]
  have hd : (raw.map parseIntJS).dedup.length ≠ (raw.map parseIntJS).length := by
    intro he
    apply h2
    have hsub := List.dedup_sublist (raw.map parseIntJS)
    have heq := hsub.eq_of_length he
    rw [← heq]
    exact List.nodup_dedup _
  rw [if_neg Bool.false_ne_true, if_pos hd]

/-- C3 (amended): `validate` accepts exactly those inputs whose entries
parse (via JavaScript `parseInt`) to a permutation of `1..size`; a
NaN-parsing or out-of-range entry gives `InvalidRange` and a repeated
parsed value gives `DuplicateValue`.  But a non-integer numeric string
is NOT rejected: `parseInt` silently truncates it to its leading
integer part, so such an element is coerced, never refused. -/
theorem validate_behavior (size : Nat) (_hsz : 1 ≤ size) :
    (∀ raw : List (List Char), ∀ pattern : List Int,
      raw.map parseIntJS = pattern.map (fun v => some v) →
      pattern.Perm ((List.range' 1 size).map (fun (n : Nat) => (n : Int))) →
      validate size raw = Except.ok (pattern.map (fun v => some v))) ∧
    (∀ raw : List (List Char),
      (∃ p ∈ raw.map parseIntJS,
        p = none ∨ ∃ v : Int, p = some v ∧ (v < 1 ∨ v > (size : Int))) →
      validate size raw = Except.error ValidationError.InvalidRange) ∧
    (∀ raw : List (List Char),
      (∀ p ∈ raw.map parseIntJS, ∃ v : Int, p = some v ∧ 1 ≤ v ∧ v ≤ (size : Int)) →
      ¬ (raw.map parseIntJS).Nodup →
      validate size raw = Except.error ValidationError.DuplicateValue) := by
  refine ⟨?_, fun raw h => validate_invalid_range h,
    fun raw h1 h2 => validate_duplicate h1 h2⟩
  intro raw pattern hmap hperm
  rw [← hmap]
  have hnd : pattern.Nodup := by
    have hinj : Function.Injective (fun (n : Nat) => (n : Int)) := by
      intro a b hh
      simp only [] at hh
      exact_mod_cast hh
    have hndR : ((List.range' 1 size).map (fun (n : Nat) => (n : Int))).Nodup :=
      (List.nodup_range' 1 size).map hinj
    exact hperm.nodup_iff.mpr hndR
  apply validate_ok_aux
  · rw [hmap]
    intro p hp
    rw [List.mem_map] at hp
    obtain ⟨v, hv, rfl⟩ := hp
    refine ⟨v, rfl, ?_⟩
    have hvmem : v ∈ (List.range' 1 size).map (fun (n : Nat) => (n : Int)) := hperm.subset hv
    rw [List.mem_map] at hvmem
    obtain ⟨n, hn, rfl⟩ := hvmem
    rw [List.mem_range'_1] at hn
    obtain ⟨hn1, hn2⟩ := hn
    exact ⟨by exact_mod_cast hn1, by exact_mod_cast (by omega : n ≤ size)⟩
  · rw [hmap]
    exact hnd.map (Option.some_injective Int)

/-- C3 counterexample: the non-integer entry `"2.9"` is not rejected
with `InvalidRange`; `parseInt` truncates it to `2` and the candidate
`["2.9", "1", "3"]` is accepted for `size = 3`. -/
theorem validate_coercion_cex :
    parseIntJS [ '2', '.', '9' ] = some 2 ∧
    validate 3 [[ '2', '.', '9' ], [ '1' ], [ '3' ]] =
      Except.ok [some 2, some 1, some 3] :=
  ⟨rfl, rfl⟩

/-- C4 (amended): `validate` performs no length comparison at all: a
candidate whose entries parse to distinct integers in `[1, size]` is
accepted even when its length differs from `size`; no `SizeMismatch`
failure exists in the code (the UI constructs exactly `size` input
fields, which is the only thing keeping length and size in sync). -/
theorem validate_no_size_check {size : Nat} {raw : List (List Char)}
    (_hdiff : raw.length ≠ size)
    (h1 : ∀ p ∈ raw.map parseIntJS, ∃ v : Int, p = some v ∧ 1 ≤ v ∧ v ≤ (size : Int))
    (h2 : (raw.map parseIntJS).Nodup) :
    validate size raw = Except.ok (raw.map parseIntJS) :=
  validate_ok_aux h1 h2

/-- C4 counterexample: the length-2 candidate `["1", "2"]` is accepted
for `size = 3` — `validate` never fails on a length mismatch. -/
theorem validate_no_size_check_cex :
    validate 3 [[ '1' ], [ '2' ]] = Except.ok [some 1, some 2] :=
  rfl

/-- Witness for C1 on the spec's concrete scenario: `size = 3`,
`pattern = [3, 1, 2]`, one 3-pixel row; destination offset `0` pulls
source column `2`. -/
theorem processImage_gather_witness :
    (processImage ⟨3, 1, [10, 11, 12, 13, 20, 21, 22, 23, 30, 31, 32, 33]⟩
        3 [3, 1, 2]).data.getD (pixIdx 3 0 (0 * 3 + 0) + 0) 0 =
      (⟨3, 1, [10, 11, 12, 13, 20, 21, 22, 23, 30, 31, 32, 33]⟩ : PixelBuffer).data.getD
        (pixIdx 3 0 (0 * 3 + ([3, 1, 2].getD 0 0 - 1)) + 0) 0 :=
  processImage_gather (by decide) (by decide) (by decide) (by decide) (by decide)
    (by decide)

/-- Witness for C2 on the spec's concrete scenario `width = 7`,
`size = 3`: column 6 is copied unchanged. -/
theorem processImage_partial_slice_witness :
    (processImage ⟨7, 1, List.range 28⟩ 3 [3, 1, 2]).data.getD (pixIdx 7 0 6 + 0) 0 =
      (⟨7, 1, List.range 28⟩ : PixelBuffer).data.getD (pixIdx 7 0 6 + 0) 0 :=
  processImage_partial_slice 2 1 (by decide) (by decide) (by decide) (by decide)
    (by decide) (by decide) (by decide) (by decide) (by decide)

/-- Witness for C3: the permutation input `["3", "1", "2"]` is accepted
for `size = 3`. -/
theorem validate_behavior_witness :
    validate 3 [[ '3' ], [ '1' ], [ '2' ]] =
      Except.ok ([(3 : Int), 1, 2].map (fun v => some v)) :=
  (validate_behavior 3 (by decide)).1 [[ '3' ], [ '1' ], [ '2' ]] [3, 1, 2]
    (by decide) (by decide)

/-- Witness for C4: a length-3 candidate with distinct in-range values
is accepted for `size = 4`. -/
theorem validate_no_size_check_witness :
    validate 4 [[ '2' ], [ '4' ], [ '1' ]] =
      Except.ok ([[ '2' ], [ '4' ], [ '1' ]].map parseIntJS) :=
  validate_no_size_check (by decide) (by decide) (by decide)

/-- Witness for C5 at `width = 7`, `size = 3`: the ratio reported after
the second slice is `2 / 2 = (1 + 1) / (7 / 3)`. -/
theorem completionRatios_spec_witness :
    (completionRatios 7 3).getD 1 0 = ((1 : ℚ) + 1) / ((7 / 3 : Nat) : ℚ) :=
  (completionRatios_spec 7 3 (by decide)).2.2.1 1 (by decide)

/-- Witness for C6: the identity pattern `[1, 2]` leaves a 2×1 buffer
unchanged. -/
theorem processImage_identity_witness :
    processImage ⟨2, 1, [1, 2, 3, 4, 5, 6, 7, 8]⟩ 2 (List.range' 1 2) =
      (⟨2, 1, [1, 2, 3, 4, 5, 6, 7, 8]⟩ : PixelBuffer) :=
  processImage_identity (by decide) (by decide)

/-- Witness for C7: `[3, 1, 2]` followed by its inverse `[2, 3, 1]`
restores a 3×1 buffer. -/
theorem processImage_involution_witness :
    processImage (processImage ⟨3, 1, List.range 12⟩ 3 [3, 1, 2]) 3 [2, 3, 1] =
      (⟨3, 1, List.range 12⟩ : PixelBuffer) :=
  processImage_involution (by decide) (by decide) (by decide) (by decide) (by decide)
    (by decide)

/-- Witness for C9: the permuted row-slice of a 3×1 buffer under
`[2, 3, 1]` is a permutation of the original row-slice. -/
theorem processImage_row_slice_perm_witness :
    (rowSlicePixels (processImage ⟨3, 1, List.range 12⟩ 3 [2, 3, 1]) 0 0 3).Perm
      (rowSlicePixels ⟨3, 1, List.range 12⟩ 0 0 3) :=
  processImage_row_slice_perm (by decide) (by decide) (by decide) (by decide)
    (by decide) (by decide) (by decide)

/-- Witness for C10: the output pixel at column 1 of a 3×1 buffer under
`[3, 1, 2]` is a whole copy of one input pixel of the same row. -/
theorem processImage_pixel_source_witness :
    ∃ sx, sx < (3 : Nat) ∧ ∀ c, c < 4 →
      (processImage ⟨3, 1, List.range 12⟩ 3 [3, 1, 2]).data.getD (pixIdx 3 0 1 + c) 0 =
        (⟨3, 1, List.range 12⟩ : PixelBuffer).data.getD (pixIdx 3 0 sx + c) 0 :=
  @processImage_pixel_source ⟨3, 1, List.range 12⟩ 3 [3, 1, 2] (by decide) (by decide)
    (by decide) 0 1 (by decide) (by decide)

end WeaveLab
